import Mathlib

/-!
Verification development for the GitHub Brain Raycast extension
(`src/search.tsx`).  The definitions below are a shallow embedding of the
source: JavaScript strings become Lean `String`s, the JavaScript regular
expressions used by the record parser are modelled character by character
(including their backtracking behaviour on all-whitespace tails), and the
event-driven session controller `callMCPSearch` becomes an explicit state
machine driven by a list of I/O events.
-/

namespace GithubBrain

/-! ## JavaScript character classes

`jsWs` is the set matched by the regex class `\s` and trimmed by
`String.prototype.trim` (ASCII whitespace plus the Unicode space
separators, line separators and BOM).  `jsLineTerm` is the set of
line-terminator characters that the regex `.` does not match and `$`
anchors before (in non-multiline mode `$` only matches at the very end,
which the model reflects by requiring the capture to run to the end of
the line). -/

def jsWs (c : Char) : Bool :=
  c == ' ' || c == '\t' || c == '\n' || c == '\r' ||
  c.val == 11 || c.val == 12 ||
  c.val == 0xa0 || c.val == 0x1680 ||
  (0x2000 ≤ c.val && c.val ≤ 0x200a) ||
  c.val == 0x2028 || c.val == 0x2029 ||
  c.val == 0x202f || c.val == 0x205f || c.val == 0x3000 || c.val == 0xfeff

def jsLineTerm (c : Char) : Bool :=
  c == '\n' || c == '\r' || c.val == 0x2028 || c.val == 0x2029

/-- Model of `String.prototype.trim`. -/
def jsTrim (s : String) : String :=
  String.mk (((s.toList.dropWhile jsWs).reverse.dropWhile jsWs).reverse)

/-! ## Splitting

`splitNlL`/`splitNl` model `str.split("\n")` (split at every newline
character); `jsSplit` models `str.split(sep)` for a non-empty separator
string: repeatedly cut at the leftmost occurrence of the separator. -/

def splitNlL : List Char → List (List Char)
  | [] => [[]]
  | c :: rest =>
    if c == '\n' then [] :: splitNlL rest
    else
      match splitNlL rest with
      | l :: ls => (c :: l) :: ls
      | [] => [[c]]

def splitNl (s : String) : List String :=
  (splitNlL s.toList).map String.mk

def listIsPrefix : List Char → List Char → Bool
  | [], _ => true
  | _ :: _, [] => false
  | a :: as, b :: bs => a == b && listIsPrefix as bs

/-- Substring containment test used in the statements about block
boundaries. -/
def hasSub (sep : List Char) : List Char → Bool
  | [] => listIsPrefix sep []
  | c :: rest => listIsPrefix sep (c :: rest) || hasSub sep rest

/-- Strip the leftmost occurrence of `sep`: returns the part before it
and the part after it. -/
def stripFirst (sep : List Char) : List Char → Option (List Char × List Char)
  | [] => none
  | c :: rest =>
    if listIsPrefix sep (c :: rest) then some ([], (c :: rest).drop sep.length)
    else
      match stripFirst sep rest with
      | some (pre, post) => some (c :: pre, post)
      | none => none

def splitSubAux (sep : List Char) : Nat → List Char → List (List Char)
  | 0, s => [s]
  | Nat.succ fuel, s =>
    match stripFirst sep s with
    | some pp => pp.1 :: splitSubAux sep fuel pp.2
    | none => [s]

/-- Model of `str.split(sep)` for a non-empty separator string. -/
def jsSplit (sep s : String) : List String :=
  (splitSubAux sep.toList (s.toList.length + 1) s.toList).map String.mk

/-! ## The field-extraction regexes of `parseSearchResults`

`capTail` models the suffix `\s*(.+)$` of the regexes (returning the
captured group), including the backtracking that happens when everything
after the label is whitespace: the greedy `\s*` gives one character back
so that `.+` can match, so `"- URL:  "` captures `" "`.  `matchHeading`
models `/^##\s*(.+)$/`, `matchField label` models
`/^-\s*<label>\s*(.+)$/` for the six field labels. -/

def capTail (r : List Char) : Option String :=
  if (r.dropWhile jsWs).isEmpty then
    match r.getLast? with
    | some c => if jsLineTerm c then none else some (String.mk [c])
    | none => none
  else if (r.dropWhile jsWs).all (fun c => !jsLineTerm c) then
    some (String.mk (r.dropWhile jsWs))
  else none

def matchHeading (line : String) : Option String :=
  match line.toList with
  | '#' :: '#' :: rest => capTail rest
  | _ => none

def matchField (label : String) (line : String) : Option String :=
  match line.toList with
  | [] => none
  | c :: rest =>
    if c == '-' then
      let r := rest.dropWhile jsWs
      if listIsPrefix label.toList r then capTail (r.drop label.toList.length)
      else none
    else none

/-! ## `parseSearchResults` (source lines 292–342) -/

structure SearchResult where
  title : String
  url : String
  repository : String
  type : String
  state : String
  author : String
  created_at : String
deriving Repr, DecidableEq

/-- The six mutable field variables of the block loop, with their
initial defaults (source lines 304–309). -/
structure Fields where
  url : String
  repository : String
  type : String
  state : String
  author : String
  created_at : String
deriving Repr, DecidableEq

def initFields : Fields :=
  { url := "", repository := "", type := "issue", state := "open",
    author := "", created_at := "" }

/-- One iteration of the field loop (source lines 311–326): each of the
six regexes is tried and a match overwrites the corresponding field. -/
def scanLine (f : Fields) (line : String) : Fields :=
  { url := (matchField "URL:" line).getD f.url,
    repository := (matchField "Repository:" line).getD f.repository,
    type := (matchField "Type:" line).getD f.type,
    state := (matchField "State:" line).getD f.state,
    author := (matchField "Author:" line).getD f.author,
    created_at := (matchField "Created at:" line).getD f.created_at }

/-- The conditional `push` at the end of the section loop (source
lines 328–338): keep the record only when `url && title` is truthy. -/
def sectionRecord (title : String) (f : Fields) : Option SearchResult :=
  if f.url ≠ "" ∧ title ≠ "" then
    some { title := title, url := f.url, repository := f.repository,
           type := f.type, state := f.state, author := f.author,
           created_at := f.created_at }
  else none

/-- One iteration of the section loop (source lines 296–339): trim the
section, split into lines, require at least two lines, match the
heading on the first line, fold the field regexes over the remaining
lines, and keep the record only when `url && title` is truthy. -/
def parseSection (sec : String) : Option SearchResult :=
  match splitNl (jsTrim sec) with
  | l0 :: l1 :: rest =>
    match matchHeading l0 with
    | none => none
    | some title => sectionRecord title ((l1 :: rest).foldl scanLine initFields)
  | _ => none

/-- The `results` array being built by `push` (source lines 293–339). -/
def collectResults : List String → List SearchResult → List SearchResult
  | [], acc => acc
  | sec :: rest, acc =>
    match parseSection sec with
    | some r => collectResults rest (acc ++ [r])
    | none => collectResults rest acc

/-- `content.split("---").filter((section) => section.trim())`
(source line 294). -/
def rawSections (content : String) : List String :=
  (jsSplit "---" content).filter (fun s => !(jsTrim s == ""))

/-- `parseSearchResults` (source lines 292–342). -/
def parseSearchResults (content : String) : List SearchResult :=
  (collectResults (rawSections content) []).take 20

/-! ## JSON values and a model of `JSON.parse`

The wire protocol is newline-delimited JSON.  `Json` is the value
universe the handlers inspect; `jsonParse` is a model of `JSON.parse`
restricted to integer numerals (fractional or exponent numerals and
`\u` escapes make the model return `none`, i.e. such a line is treated
as protocol noise; no claim depends on them) and it does not reject
leading zeros.  Duplicate object keys resolve to the last occurrence,
as in JavaScript, via `objGet`. -/

inductive Json where
  | jnull : Json
  | jbool : Bool → Json
  | jnum : Int → Json
  | jstr : String → Json
  | jarr : List Json → Json
  | jobj : List (String × Json) → Json

def lbraceChar : Char := Char.ofNat 123

def rbraceChar : Char := Char.ofNat 125

def jsonWsChar (c : Char) : Bool :=
  c == ' ' || c == '\t' || c == '\n' || c == '\r'

def skipJsonWs (s : List Char) : List Char := s.dropWhile jsonWsChar

def jstrAux : List Char → Option (List Char × List Char)
  | [] => none
  | c :: rest =>
    if c == '"' then some ([], rest)
    else if c == '\\' then
      match rest with
      | [] => none
      | e :: rest2 =>
        let esc : Option Char :=
          if e == '"' then some '"'
          else if e == '\\' then some '\\'
          else if e == '/' then some '/'
          else if e == 'b' then some (Char.ofNat 8)
          else if e == 'f' then some (Char.ofNat 12)
          else if e == 'n' then some '\n'
          else if e == 'r' then some '\r'
          else if e == 't' then some '\t'
          else none
        match esc with
        | none => none
        | some ch =>
          match jstrAux rest2 with
          | some (cs, r) => some (ch :: cs, r)
          | none => none
    else if c.val < 32 then none
    else
      match jstrAux rest with
      | some (cs, r) => some (c :: cs, r)
      | none => none

def digitVal (c : Char) : Option Nat :=
  if '0' ≤ c ∧ c ≤ '9' then some (c.toNat - '0'.toNat) else none

def digitsAux : List Char → Nat → (Nat × List Char)
  | [], acc => (acc, [])
  | c :: rest, acc =>
    match digitVal c with
    | some d => digitsAux rest (acc * 10 + d)
    | none => (acc, c :: rest)

def parseDigits : List Char → Option (Nat × List Char)
  | [] => none
  | c :: rest =>
    match digitVal c with
    | some d => some (digitsAux rest d)
    | none => none

def parseJNum : List Char → Option (Int × List Char)
  | '-' :: rest => (parseDigits rest).map (fun p => (-(p.1 : Int), p.2))
  | s => (parseDigits s).map (fun p => ((p.1 : Int), p.2))

mutual

def parseVal : Nat → List Char → Option (Json × List Char)
  | 0, _ => none
  | Nat.succ fuel, s =>
    match skipJsonWs s with
    | [] => none
    | c :: rest =>
      if c == lbraceChar then
        match skipJsonWs rest with
        | [] => none
        | c2 :: r2 =>
          if c2 == rbraceChar then some (Json.jobj [], r2)
          else parseObjFields fuel (c2 :: r2)
      else if c == '[' then
        match skipJsonWs rest with
        | [] => none
        | c2 :: r2 =>
          if c2 == ']' then some (Json.jarr [], r2)
          else
            match parseArrElems fuel (c2 :: r2) with
            | some (vs, r) => some (Json.jarr vs, r)
            | none => none
      else if c == '"' then
        match jstrAux rest with
        | some (cs, r) => some (Json.jstr (String.mk cs), r)
        | none => none
      else if c == 't' then
        if listIsPrefix ['t', 'r', 'u', 'e'] (c :: rest) then
          some (Json.jbool true, (c :: rest).drop 4)
        else none
      else if c == 'f' then
        if listIsPrefix ['f', 'a', 'l', 's', 'e'] (c :: rest) then
          some (Json.jbool false, (c :: rest).drop 5)
        else none
      else if c == 'n' then
        if listIsPrefix ['n', 'u', 'l', 'l'] (c :: rest) then
          some (Json.jnull, (c :: rest).drop 4)
        else none
      else
        match parseJNum (c :: rest) with
        | some (n, r) => some (Json.jnum n, r)
        | none => none

def parseObjFields : Nat → List Char → Option (Json × List Char)
  | 0, _ => none
  | Nat.succ fuel, s =>
    match skipJsonWs s with
    | [] => none
    | c :: rest =>
      if c == '"' then
        match jstrAux rest with
        | some (key, r) =>
          match skipJsonWs r with
          | ':' :: r2 =>
            match parseVal fuel r2 with
            | some (v, r3) =>
              match skipJsonWs r3 with
              | c2 :: r4 =>
                if c2 == ',' then
                  match parseObjFields fuel r4 with
                  | some (Json.jobj fs, r5) => some (Json.jobj ((String.mk key, v) :: fs), r5)
                  | _ => none
                else if c2 == rbraceChar then some (Json.jobj [(String.mk key, v)], r4)
                else none
              | [] => none
            | none => none
          | _ => none
        | none => none
      else none

def parseArrElems : Nat → List Char → Option (List Json × List Char)
  | 0, _ => none
  | Nat.succ fuel, s =>
    match parseVal fuel s with
    | some (v, r) =>
      match skipJsonWs r with
      | c :: r2 =>
        if c == ',' then
          match parseArrElems fuel r2 with
          | some (vs, r3) => some (v :: vs, r3)
          | none => none
        else if c == ']' then some ([v], r2)
        else none
      | [] => none
    | none => none

end

/-- Model of `JSON.parse(line)`: parse one value, allow surrounding
whitespace, require the whole input to be consumed. -/
def jsonParse (line : String) : Option Json :=
  let cs := line.toList
  match parseVal (2 * cs.length + 2) cs with
  | some (v, rest) => if (skipJsonWs rest).isEmpty then some v else none
  | none => none

/-- JavaScript truthiness of a JSON value. -/
def truthy : Json → Bool
  | Json.jnull => false
  | Json.jbool b => b
  | Json.jnum n => !(n == 0)
  | Json.jstr s => !(s == "")
  | Json.jarr _ => true
  | Json.jobj _ => true

def optTruthy : Option Json → Bool
  | none => false
  | some v => truthy v

/-- Object property lookup; the last duplicate key wins, matching the
behaviour of `JSON.parse`. -/
def objGet (fields : List (String × Json)) (key : String) : Option Json :=
  fields.foldl (fun acc p => if p.1 == key then some p.2 else acc) none

/-- `message.<key>`: property access on a decoded message (`undefined`,
i.e. `none`, on non-objects). -/
def msgField : Json → String → Option Json
  | Json.jobj fs, key => objGet fs key
  | _, _ => none

/-- `message.id === n`. -/
def idEquals (m : Json) (n : Int) : Bool :=
  match msgField m "id" with
  | some (Json.jnum k) => k == n
  | _ => false

/-! ## `parseMCPResponse` (source lines 266–290)

The entire loop body of `parseMCPResponse`, including the
`throw new Error(...)` for a message with an `error` member and the
call to `parseSearchResults`, sits inside the `try` whose `catch`
continues with the next line.  Consequently the function can never
propagate an exception: a thrown error (or a `TypeError` from calling
string methods on a non-string payload) just moves on to the next line,
and the function returns `[]` when no line produced a result. -/

/-- `response.result && response.result.content` (source line 275):
`some content` when both are truthy. -/
def resultContent (response : Json) : Option Json :=
  match msgField response "result" with
  | some r =>
    if truthy r then
      match msgField r "content" with
      | some c => if truthy c then some c else none
      | none => none
    else none
  | none => none

/-- `content[0]?.text` (source line 276). -/
def contentItem0Text (c : Json) : Option Json :=
  let item0 : Option Json :=
    match c with
    | Json.jarr (x :: _) => some x
    | Json.jobj fs => objGet fs "0"
    | _ => none
  match item0 with
  | some (Json.jobj fs) => objGet fs "text"
  | _ => none

/-- `content[0]?.text || ""` followed by handing the value to
`parseSearchResults`: `some t` is the string actually parsed, `none`
marks the case of a truthy non-string value, where
`parseSearchResults` would throw a `TypeError` (swallowed by the
enclosing `catch`). -/
def contentPayload (c : Json) : Option String :=
  match contentItem0Text c with
  | none => some ""
  | some (Json.jstr s) => some s
  | some v => if truthy v then none else some ""

def mcpLoop : List String → List SearchResult
  | [] => []
  | line :: rest =>
    match jsonParse line with
    | none => mcpLoop rest
    | some response =>
      match resultContent response with
      | some c =>
        match contentPayload c with
        | some t => parseSearchResults t
        | none => mcpLoop rest
      | none => mcpLoop rest

/-- `parseMCPResponse` (source lines 266–290).  Total: the `throw` in
its `else if (response.error)` branch is caught by the loop's own
`catch`, so both that branch and any parse failure simply continue;
the reject branches of its callers are therefore unreachable. -/
def parseMCPResponse (responseData : String) : List SearchResult :=
  mcpLoop ((splitNl responseData).filter (fun l => !(jsTrim l == "")))

/-! ## The session controller `callMCPSearch` (source lines 56–264)

The controller is event-driven; we model one session as a state record
and the four process callbacks (stdout data, stderr data, the response
deadline timer, process close) plus the process `error` event as an
explicit step function over an `Event` alphabet.  `settleCalls` records
every call to the promise's `resolve`/`reject` in order (the promise's
final value is the first entry); `kills` counts the
`mcpProcess.kill()` signals; `stdinWrites` records the messages
written to the process's stdin, in order. -/

inductive ClientMsg where
  | initReq : ClientMsg
  | initedNote : ClientMsg
  | toolCallReq : String → ClientMsg
deriving Repr, DecidableEq

inductive MCPError where
  | timeout : MCPError
  | protocolErr : Json → MCPError
  | processFailure : Option Int → String → MCPError
  | execNotFound : MCPError
  | spawnFailure : String → MCPError

inductive Outcome where
  | resolvedWith : List SearchResult → Outcome
  | rejectedWith : MCPError → Outcome

structure Session where
  query : String
  responseData : String
  errorData : String
  hasReceivedResponse : Bool
  isInitialized : Bool
  timerArmed : Bool
  stdinWrites : List ClientMsg
  settleCalls : List Outcome
  kills : Nat

inductive Event where
  | stdoutData : String → Event
  | stderrData : String → Event
  | timerFire : Event
  | closeEvt : Option Int → Event
  | procError : Bool → String → Event

/-- The framing step (source lines 99–103): append the chunk to the
buffer, split on newlines, keep the final (possibly incomplete) piece
as the new buffer, return the complete lines. -/
def processChunk (buffer chunk : String) : List String × String :=
  let parts := splitNl (buffer ++ chunk)
  (parts.dropLast, (parts.getLast?).getD "")

/-- The message loop of the stdout handler (source lines 105–187):
skip blank and unparseable lines; on `id === 1 && result &&
!isInitialized` perform the handshake continuation (write the
initialized notification, then the tool-call request) and continue; on
`id === 2 && result` settle by resolving with `parseMCPResponse(line)`
after killing the process, and stop; on a truthy `error` member settle
by rejecting, after clearing the timer and killing the process, and
stop. -/
def handleLines (s : Session) : List String → Session
  | [] => s
  | line :: rest =>
    if jsTrim line == "" then handleLines s rest
    else
      match jsonParse line with
      | none => handleLines s rest
      | some m =>
        if idEquals m 1 && optTruthy (msgField m "result") && !s.isInitialized then
          handleLines
            { s with
              isInitialized := true,
              stdinWrites := s.stdinWrites ++
                [ClientMsg.initedNote, ClientMsg.toolCallReq s.query] } rest
        else if idEquals m 2 && optTruthy (msgField m "result") then
          { s with
            hasReceivedResponse := true,
            timerArmed := false,
            kills := s.kills + 1,
            settleCalls := s.settleCalls ++
              [Outcome.resolvedWith (parseMCPResponse line)] }
        else if optTruthy (msgField m "error") then
          { s with
            timerArmed := false,
            kills := s.kills + 1,
            settleCalls := s.settleCalls ++
              [Outcome.rejectedWith
                (MCPError.protocolErr ((msgField m "error").getD Json.jnull))] }
        else handleLines s rest

/-- The event dispatch: one callback invocation of the session. -/
def step (s : Session) : Event → Session
  | Event.stdoutData chunk =>
    let pc := processChunk s.responseData chunk
    handleLines { s with responseData := pc.2 } pc.1
  | Event.stderrData chunk => { s with errorData := s.errorData ++ chunk }
  | Event.timerFire =>
    if s.timerArmed then
      let s2 := { s with timerArmed := false }
      if !s2.hasReceivedResponse then
        { s2 with
          kills := s2.kills + 1,
          settleCalls := s2.settleCalls ++ [Outcome.rejectedWith MCPError.timeout] }
      else s2
    else s
  | Event.closeEvt code =>
    let s2 := { s with timerArmed := false }
    if !s2.hasReceivedResponse then
      if !(code == some 0) then
        { s2 with
          settleCalls := s2.settleCalls ++
            [Outcome.rejectedWith (MCPError.processFailure code s2.errorData)] }
      else
        { s2 with
          settleCalls := s2.settleCalls ++
            [Outcome.resolvedWith (parseMCPResponse s2.responseData)] }
    else s2
  | Event.procError enoent msg =>
    { s with
      timerArmed := false,
      settleCalls := s.settleCalls ++
        [Outcome.rejectedWith
          (if enoent then MCPError.execNotFound else MCPError.spawnFailure msg)] }

/-- The state right after the spawn: buffers empty, flags false, the
deadline timer armed, the handshake request already written to stdin
(source lines 84–95 and 210–233). -/
def initSession (q : String) : Session :=
  { query := q, responseData := "", errorData := "",
    hasReceivedResponse := false, isInitialized := false, timerArmed := true,
    stdinWrites := [ClientMsg.initReq], settleCalls := [], kills := 0 }

/-- Run a whole session on a list of I/O events. -/
def run (q : String) (es : List Event) : Session :=
  es.foldl step (initSession q)

/-- Continue a session from an arbitrary state. -/
def runFrom (s : Session) (es : List Event) : Session :=
  es.foldl step s

/-- Events that can arrive after settlement without new stdout data:
timer firings and the process-exit notification. -/
def isLateEvent : Event → Bool
  | Event.timerFire => true
  | Event.closeEvt _ => true
  | _ => false

/-- The framing layer in isolation: feed a list of chunks through
`processChunk`, starting from a given buffer, collecting the emitted
lines and the final buffer. -/
def runFraming : String → List String → List String × String
  | buf, [] => ([], buf)
  | buf, c :: cs =>
    let pc := processChunk buf c
    let rest := runFraming pc.2 cs
    (pc.1 ++ rest.1, rest.2)

/-- Concatenation of all chunks, in arrival order. -/
def concatAll : List String → String
  | [] => ""
  | c :: cs => c ++ concatAll cs

/-! ## Spec-side block splitting (for the boundary claim)

The specification describes the record-block boundary as "a line
consisting of three hyphens".  `parseSearchResultsSpecSplit` follows
that wording: it groups the payload's lines between lines that are
exactly `---`, and runs the same per-block parser on each group.  It is
compared against the source's `parseSearchResults`, which instead cuts
at every occurrence of the substring `---`. -/

def splitAtDashLines : List String → List (List String)
  | [] => [[]]
  | l :: rest =>
    if l == "---" then [] :: splitAtDashLines rest
    else
      match splitAtDashLines rest with
      | g :: gs => (l :: g) :: gs
      | [] => [[l]]

def joinNl : List String → String
  | [] => ""
  | [x] => x
  | x :: xs => x ++ "\n" ++ joinNl xs

/-- Block splitting as the specification words it: boundaries are
exactly the lines consisting of three hyphens; the rest of the
pipeline is identical to `parseSearchResults`. -/
def parseSearchResultsSpecSplit (content : String) : List SearchResult :=
  let sections :=
    ((splitAtDashLines (splitNl content)).map joinNl).filter
      (fun s => !(jsTrim s == ""))
  (sections.filterMap parseSection).take 20

/-! ## Small predicates used in the theorem statements -/

def isInitedNoteMsg : ClientMsg → Bool
  | ClientMsg.initedNote => true
  | _ => false

def isToolCallMsg : ClientMsg → Bool
  | ClientMsg.toolCallReq _ => true
  | _ => false

/-- The stdin-write invariant of a session: before the handshake
response only the id-1 request has been written; after it, exactly the
id-1 request, the initialized notification and the id-2 tool-call
request, in that order. -/
def WritesInv (q : String) (s : Session) : Prop :=
  s.query = q ∧
  ((s.isInitialized = false ∧ s.stdinWrites = [ClientMsg.initReq]) ∨
   (s.isInitialized = true ∧
    s.stdinWrites =
      [ClientMsg.initReq, ClientMsg.initedNote, ClientMsg.toolCallReq q]))

/-- The coupling of the settlement flag with the timer, the kill
counter and the response flag: while no `resolve`/`reject` call has
been made, the deadline timer is still armed, no termination signal has
been sent, and no tool-call response has been recorded. -/
def UnsettledInv (s : Session) : Prop :=
  s.settleCalls = [] →
    s.timerArmed = true ∧ s.kills = 0 ∧ s.hasReceivedResponse = false

/-! ## Concrete wire inputs used by the witnesses and counterexamples -/

/-- A complete id-2 tool-call response line (with terminator) whose
payload text is empty. -/
def id2chunkEx : String :=
  "\x7b\"id\":2,\"result\":\x7b\"content\":[\x7b\"text\":\"\"\x7d]\x7d\x7d\n"

/-- An id-2 tool-call response with a parseable record payload, sent
without a trailing newline, so it stays in the session's buffer. -/
def bufferedRespEx : String :=
  "\x7b\"id\":2,\"result\":\x7b\"content\":[\x7b\"text\":\"## T\\n- URL: u\"\x7d]\x7d\x7d"

/-- An id-2 response whose `result` carries no `content` member: its
payload cannot be interpreted as the record-block format. -/
def badPayloadEx : String := "\x7b\"id\":2,\"result\":\x7b\"foo\":1\x7d\x7d\n"

/-- The decoded form of `badPayloadEx` without its newline. -/
def badPayloadJson : Json :=
  Json.jobj [("id", Json.jnum 2), ("result", Json.jobj [("foo", Json.jnum 1)])]

/-- A message line carrying an `error` member. -/
def errLineEx : String := "\x7b\"error\":\x7b\"message\":\"x\"\x7d\x7d\n"

/-- A handshake response line: id 1 with a result. -/
def initResLineEx : String := "\x7b\"id\":1,\"result\":\x7b\x7d\x7d\n"

/-! # Theorems -/

/-! ## The `results` loop of `parseSearchResults` -/

theorem collectResults_eq (secs : List String) (acc : List SearchResult) :
    collectResults secs acc = acc ++ secs.filterMap parseSection := by
  induction secs generalizing acc with
  | nil => simp [collectResults]
  | cons sec rest ih =>
    cases h : parseSection sec with
    | none => simp [collectResults, h, ih]
    | some r => simp [collectResults, h, ih]

/-- C8: `parseSearchResults` is idempotent and order-preserving with a
bounded output: applying it twice to the same payload yields identical
output, the output is exactly the first at most 20 accepted records of
the section list in source order (a `filterMap` in payload order
followed by `take 20`, with no re-sorting), and its length never
exceeds 20. -/
theorem parseSearchResults_ordered_bounded (content : String) :
    parseSearchResults content = parseSearchResults content ∧
    parseSearchResults content =
      ((rawSections content).filterMap parseSection).take 20 ∧
    (parseSearchResults content).length ≤ 20 := by
  refine ⟨rfl, ?_, ?_⟩
  · simp [parseSearchResults, collectResults_eq]
  · simp only [parseSearchResults, List.length_take]
    exact min_le_left _ _

/-! ## Captures of the block regexes are never empty -/

theorem mk_cons_ne_empty (c : Char) (l : List Char) : String.mk (c :: l) ≠ "" := by
  intro h
  have h2 := congrArg String.data h
  simp at h2

theorem capTail_ne_empty (r : List Char) (v : String) (h : capTail r = some v) :
    v ≠ "" := by
  simp only [capTail] at h
  by_cases he : (r.dropWhile jsWs).isEmpty = true
  · rw [if_pos he] at h
    cases hl : r.getLast? with
    | none => rw [hl] at h; cases h
    | some c =>
      rw [hl] at h
      replace h : (if jsLineTerm c = true then none
          else some (String.mk [c])) = some v := h
      by_cases hlt : jsLineTerm c = true
      · rw [if_pos hlt] at h; cases h
      · rw [if_neg hlt] at h
        cases h
        exact mk_cons_ne_empty c []
  · rw [if_neg he] at h
    by_cases ha : (r.dropWhile jsWs).all (fun ch => !jsLineTerm ch) = true
    · rw [if_pos ha] at h
      cases h
      cases ht : r.dropWhile jsWs with
      | nil => rw [ht] at he; simp at he
      | cons c l => exact mk_cons_ne_empty c l
    · rw [if_neg ha] at h; cases h

theorem matchHeading_ne_empty (line : String) (t : String)
    (h : matchHeading line = some t) : t ≠ "" := by
  simp only [matchHeading] at h
  split at h
  · exact capTail_ne_empty _ _ h
  · cases h

theorem matchField_ne_empty (lab line : String) (v : String)
    (h : matchField lab line = some v) : v ≠ "" := by
  simp only [matchField] at h
  split at h
  · cases h
  · split at h
    · split at h
      · exact capTail_ne_empty _ _ h
      · cases h
    · cases h

/-! ## The field loop of `parseSection` -/

theorem foldl_scanLine_none (g : Fields → String) (lab : String)
    (hg : ∀ f l, g (scanLine f l) = (matchField lab l).getD (g f))
    (ls : List String) (f0 : Fields)
    (h : ∀ l ∈ ls, matchField lab l = none) :
    g (ls.foldl scanLine f0) = g f0 := by
  induction ls generalizing f0 with
  | nil => rfl
  | cons a as ih =>
    have ha : matchField lab a = none := h a (List.mem_cons_self a as)
    calc g ((a :: as).foldl scanLine f0)
        = g (as.foldl scanLine (scanLine f0 a)) := rfl
      _ = g (scanLine f0 a) := ih _ (fun l hl => h l (List.mem_cons_of_mem a hl))
      _ = (matchField lab a).getD (g f0) := hg f0 a
      _ = g f0 := by rw [ha]; rfl

theorem foldl_scanLine_pres_ne (g : Fields → String) (lab : String)
    (hg : ∀ f l, g (scanLine f l) = (matchField lab l).getD (g f))
    (ls : List String) (f0 : Fields) (h : g f0 ≠ "") :
    g (ls.foldl scanLine f0) ≠ "" := by
  induction ls generalizing f0 with
  | nil => exact h
  | cons a as ih =>
    apply ih
    rw [hg]
    cases hm : matchField lab a with
    | none => simpa using h
    | some v => simpa using matchField_ne_empty lab a v hm

theorem foldl_scanLine_match_ne (g : Fields → String) (lab : String)
    (hg : ∀ f l, g (scanLine f l) = (matchField lab l).getD (g f))
    (ls : List String) (f0 : Fields)
    (h : ∃ l ∈ ls, (matchField lab l).isSome) :
    g (ls.foldl scanLine f0) ≠ "" := by
  induction ls generalizing f0 with
  | nil => rcases h with ⟨l, hl, _⟩; cases hl
  | cons a as ih =>
    by_cases hm : (matchField lab a).isSome = true
    · rcases Option.isSome_iff_exists.mp hm with ⟨v, hv⟩
      apply foldl_scanLine_pres_ne g lab hg as (scanLine f0 a)
      rw [hg, hv]
      simpa using matchField_ne_empty lab a v hv
    · rcases h with ⟨l, hl, hsome⟩
      rcases List.mem_cons.mp hl with rfl | hl2
      · exact absurd hsome hm
      · exact ih (scanLine f0 a) ⟨l, hl2, hsome⟩

theorem splitNlL_ne_nil (s : List Char) : splitNlL s ≠ [] := by
  induction s with
  | nil => simp [splitNlL]
  | cons c rest ih =>
    simp only [splitNlL]
    by_cases hc : (c == '\n') = true
    · simp [hc]
    · rw [if_neg hc]
      cases hs : splitNlL rest with
      | nil => simp
      | cons l ls => simp

theorem splitNl_ne_nil (s : String) : splitNl s ≠ [] := by
  simp only [splitNl, ne_eq, List.map_eq_nil_iff]
  exact splitNlL_ne_nil _

theorem sectionRecord_isSome (title : String) (f : Fields) (ht : title ≠ "") :
    (sectionRecord title f).isSome = true ↔ f.url ≠ "" := by
  by_cases hu : f.url ≠ ""
  · simp [sectionRecord, hu, ht]
  · simp [sectionRecord, hu]

theorem sectionRecord_some (title : String) (f : Fields) (r : SearchResult)
    (h : sectionRecord title f = some r) :
    r.title = title ∧ r.url = f.url ∧ r.repository = f.repository ∧
    r.type = f.type ∧ r.state = f.state ∧ r.author = f.author ∧
    r.created_at = f.created_at := by
  simp only [sectionRecord] at h
  split at h
  · cases h; exact ⟨rfl, rfl, rfl, rfl, rfl, rfl, rfl⟩
  · cases h

/-- C7: for every section of the payload, `parseSection` emits a record
if and only if the section's first trimmed line yields a (necessarily
non-empty) title through the heading regex and some later line yields a
non-empty URL capture; an accepted section missing any other field
keeps that field's default (empty string for `repository`, `author`
and `created_at`, `"issue"` for `type`, `"open"` for `state`); and a
line matching none of the six field regexes leaves the field state
untouched, i.e. malformed lines inside an accepted block are ignored. -/
theorem parseSection_acceptance (sec : String) :
    ((parseSection sec).isSome = true ↔
      ((∃ t, matchHeading ((splitNl (jsTrim sec)).headI) = some t ∧ t ≠ "") ∧
       ∃ l ∈ (splitNl (jsTrim sec)).tail,
         ∃ u, matchField "URL:" l = some u ∧ u ≠ "")) ∧
    (∀ r, parseSection sec = some r →
      ((∀ l ∈ (splitNl (jsTrim sec)).tail, matchField "Repository:" l = none) →
         r.repository = "") ∧
      ((∀ l ∈ (splitNl (jsTrim sec)).tail, matchField "Type:" l = none) →
         r.type = "issue") ∧
      ((∀ l ∈ (splitNl (jsTrim sec)).tail, matchField "State:" l = none) →
         r.state = "open") ∧
      ((∀ l ∈ (splitNl (jsTrim sec)).tail, matchField "Author:" l = none) →
         r.author = "") ∧
      ((∀ l ∈ (splitNl (jsTrim sec)).tail, matchField "Created at:" l = none) →
         r.created_at = "")) ∧
    (∀ f l, matchField "URL:" l = none → matchField "Repository:" l = none →
      matchField "Type:" l = none → matchField "State:" l = none →
      matchField "Author:" l = none → matchField "Created at:" l = none →
      scanLine f l = f) := by
  have hthird : ∀ (f : Fields) (l : String),
      matchField "URL:" l = none → matchField "Repository:" l = none →
      matchField "Type:" l = none → matchField "State:" l = none →
      matchField "Author:" l = none → matchField "Created at:" l = none →
      scanLine f l = f := by
    intro f l h1 h2 h3 h4 h5 h6
    simp [scanLine, h1, h2, h3, h4, h5, h6]
  cases hsp : splitNl (jsTrim sec) with
  | nil => exact absurd hsp (splitNl_ne_nil _)
  | cons l0 tl =>
    cases tl with
    | nil =>
      refine ⟨⟨?_, ?_⟩, ?_, hthird⟩
      · intro hsome
        exfalso
        simp [parseSection, hsp] at hsome
      · rintro ⟨-, l, hl, -⟩
        simp at hl
      · intro r hr
        exfalso
        simp [parseSection, hsp] at hr
    | cons l1 rest =>
      have hps : parseSection sec =
          match matchHeading l0 with
          | none => none
          | some title =>
            sectionRecord title ((l1 :: rest).foldl scanLine initFields) := by
        unfold parseSection
        rw [hsp]
      refine ⟨?_, ?_, hthird⟩
      · rw [List.headI_cons, List.tail_cons, hps]
        cases hh : matchHeading l0 with
        | none => simp
        | some title =>
          have htitle := matchHeading_ne_empty l0 title hh
          rw [sectionRecord_isSome title _ htitle]
          constructor
          · intro hurl
            have hex : ∃ l ∈ l1 :: rest, (matchField "URL:" l).isSome = true := by
              by_contra hno
              push_neg at hno
              have hallnone : ∀ l ∈ l1 :: rest, matchField "URL:" l = none := by
                intro l hl
                simpa [Option.not_isSome_iff_eq_none] using hno l hl
              have hz := foldl_scanLine_none (fun f => f.url) "URL:"
                (fun f l => rfl) (l1 :: rest) initFields hallnone
              exact hurl (hz.trans rfl)
            rcases hex with ⟨l, hl, hsome⟩
            rcases Option.isSome_iff_exists.mp hsome with ⟨u, hu⟩
            exact ⟨⟨title, rfl, htitle⟩, l, hl, u, hu, matchField_ne_empty _ _ _ hu⟩
          · rintro ⟨-, l, hl, u, hu, -⟩
            exact foldl_scanLine_match_ne (fun f => f.url) "URL:" (fun f l => rfl)
              (l1 :: rest) initFields ⟨l, hl, Option.isSome_iff_exists.mpr ⟨u, hu⟩⟩
      · intro r hr
        rw [List.tail_cons]
        rw [hps] at hr
        cases hh : matchHeading l0 with
        | none => rw [hh] at hr; cases hr
        | some title =>
          rw [hh] at hr
          have hflds := sectionRecord_some title _ r hr
          refine ⟨?_, ?_, ?_, ?_, ?_⟩
          · intro hall
            rw [hflds.2.2.1]
            exact (foldl_scanLine_none (fun f => f.repository) "Repository:"
              (fun f l => rfl) _ _ hall).trans rfl
          · intro hall
            rw [hflds.2.2.2.1]
            exact (foldl_scanLine_none (fun f => f.type) "Type:"
              (fun f l => rfl) _ _ hall).trans rfl
          · intro hall
            rw [hflds.2.2.2.2.1]
            exact (foldl_scanLine_none (fun f => f.state) "State:"
              (fun f l => rfl) _ _ hall).trans rfl
          · intro hall
            rw [hflds.2.2.2.2.2.1]
            exact (foldl_scanLine_none (fun f => f.author) "Author:"
              (fun f l => rfl) _ _ hall).trans rfl
          · intro hall
            rw [hflds.2.2.2.2.2.2]
            exact (foldl_scanLine_none (fun f => f.created_at) "Created at:"
              (fun f l => rfl) _ _ hall).trans rfl

/-- Witness for `parseSection_acceptance`: a concrete accepted block
whose repository field defaults to the empty string. -/
theorem parseSection_acceptance_witness :
    (parseSection "## T\n- URL: u\nnoise").isSome = true :=
  (parseSection_acceptance "## T\n- URL: u\nnoise").1.mpr
    ⟨⟨"T", by decide, by decide⟩, "- URL: u", by decide, "u", by decide, by decide⟩

/-! ## Block boundaries: the substring split of `parseSearchResults` -/

theorem listIsPrefix_append (p a y : List Char) (h : listIsPrefix p a = true) :
    listIsPrefix p (a ++ y) = true := by
  induction p generalizing a with
  | nil => rfl
  | cons x xs ih =>
    cases a with
    | nil => cases h
    | cons b bs =>
      simp only [listIsPrefix, Bool.and_eq_true] at h
      simp only [List.cons_append, listIsPrefix, Bool.and_eq_true]
      exact ⟨h.1, ih bs h.2⟩

theorem listIsPrefix_eq_append (p s : List Char) (h : listIsPrefix p s = true) :
    s = p ++ s.drop p.length := by
  induction p generalizing s with
  | nil => simp
  | cons x xs ih =>
    cases s with
    | nil => cases h
    | cons b bs =>
      simp only [listIsPrefix, Bool.and_eq_true, beq_iff_eq] at h
      obtain ⟨hx, hrest⟩ := h
      subst hx
      simp only [List.cons_append, List.length_cons, List.drop_succ_cons]
      exact congrArg (x :: ·) (ih bs hrest)

theorem stripFirst_append (sep s pre post : List Char)
    (h : stripFirst sep s = some (pre, post)) : s = pre ++ sep ++ post := by
  induction s generalizing pre post with
  | nil => cases h
  | cons c rest ih =>
    simp only [stripFirst] at h
    by_cases hp : listIsPrefix sep (c :: rest) = true
    · rw [if_pos hp] at h
      cases h
      simpa using listIsPrefix_eq_append sep (c :: rest) hp
    · rw [if_neg hp] at h
      cases hs : stripFirst sep rest with
      | none => rw [hs] at h; cases h
      | some pp =>
        rw [hs] at h
        obtain ⟨pre2, post2⟩ := pp
        cases h
        exact congrArg (c :: ·) (ih _ _ hs)

theorem stripFirst_post_length (sep s pre post : List Char) (hsep : sep ≠ [])
    (h : stripFirst sep s = some (pre, post)) : post.length < s.length := by
  have he := stripFirst_append sep s pre post h
  subst he
  cases sep with
  | nil => exact absurd rfl hsep
  | cons a as =>
    simp only [List.length_append, List.length_cons]
    omega

theorem stripFirst_pre_noSub (sep s pre post : List Char) (hsep : sep ≠ [])
    (h : stripFirst sep s = some (pre, post)) : hasSub sep pre = false := by
  induction s generalizing pre post with
  | nil => cases h
  | cons c rest ih =>
    simp only [stripFirst] at h
    by_cases hp : listIsPrefix sep (c :: rest) = true
    · rw [if_pos hp] at h
      cases h
      cases sep with
      | nil => exact absurd rfl hsep
      | cons a as => rfl
    · rw [if_neg hp] at h
      cases hs : stripFirst sep rest with
      | none => rw [hs] at h; cases h
      | some pp =>
        rw [hs] at h
        obtain ⟨pre2, post2⟩ := pp
        cases h
        have h1 : hasSub sep pre2 = false := ih _ _ hs
        have h2 : listIsPrefix sep (c :: pre2) = false := by
          by_contra hcp
          have hcp2 : listIsPrefix sep (c :: pre2) = true := by
            cases hb : listIsPrefix sep (c :: pre2) with
            | false => exact absurd hb hcp
            | true => rfl
          have hap := listIsPrefix_append sep (c :: pre2) (sep ++ post) hcp2
          have heq : (c :: pre2) ++ (sep ++ post) = c :: rest := by
            have hr := stripFirst_append sep rest _ _ hs
            rw [hr]
            simp [List.append_assoc]
          rw [heq] at hap
          exact absurd hap (by simpa using hp)
        simp [hasSub, h1, h2]

theorem stripFirst_none_noSub (sep s : List Char) (hsep : sep ≠ [])
    (h : stripFirst sep s = none) : hasSub sep s = false := by
  induction s with
  | nil =>
    cases sep with
    | nil => exact absurd rfl hsep
    | cons a as => rfl
  | cons c rest ih =>
    simp only [stripFirst] at h
    by_cases hp : listIsPrefix sep (c :: rest) = true
    · rw [if_pos hp] at h; cases h
    · rw [if_neg hp] at h
      cases hs : stripFirst sep rest with
      | some pp => rw [hs] at h; cases h
      | none =>
        have hp2 : listIsPrefix sep (c :: rest) = false := by simpa using hp
        simp [hasSub, hp2, ih hs]

theorem splitSubAux_noSub (sep : List Char) (hsep : sep ≠ []) :
    ∀ (fuel : Nat) (s : List Char), s.length < fuel →
    ∀ p ∈ splitSubAux sep fuel s, hasSub sep p = false := by
  intro fuel
  induction fuel with
  | zero => intro s hs; exact absurd hs (by omega)
  | succ f ih =>
    intro s hs p hp
    simp only [splitSubAux] at hp
    cases hstrip : stripFirst sep s with
    | none =>
      rw [hstrip] at hp
      simp only [List.mem_singleton] at hp
      subst hp
      exact stripFirst_none_noSub sep p hsep hstrip
    | some pp =>
      obtain ⟨pre, post⟩ := pp
      rw [hstrip] at hp
      simp only [List.mem_cons] at hp
      rcases hp with rfl | hp2
      · exact stripFirst_pre_noSub sep s p post hsep hstrip
      · have hlt := stripFirst_post_length sep s pre post hsep hstrip
        exact ih post (by omega) p hp2

/-- C6 (amended): `parseSearchResults` splits the payload into record
blocks at every occurrence of the three-hyphen substring, wherever it
occurs — inside longer lines included — so no section it parses ever
contains three consecutive hyphens. -/
theorem parseSearchResults_boundaries (content : String) (p : String)
    (hp : p ∈ rawSections content) :
    hasSub "---".toList p.toList = false := by
  have hsep : "---".toList ≠ [] := by decide
  simp only [rawSections, List.mem_filter] at hp
  obtain ⟨hp1, -⟩ := hp
  simp only [jsSplit, List.mem_map] at hp1
  obtain ⟨l, hl, rfl⟩ := hp1
  exact splitSubAux_noSub "---".toList hsep (content.toList.length + 1)
    content.toList (by omega) l hl

/-- Witness for `parseSearchResults_boundaries` at a concrete payload:
the section before an in-line `---` contains no three-hyphen run. -/
theorem parseSearchResults_boundaries_witness :
    hasSub "---".toList "a".toList = false :=
  parseSearchResults_boundaries "a---b" "a" (by decide)

/-- C6 counterexample: on the payload `"## A---B\n- URL: u"` no line
consists of three hyphens, so under the specified boundary rule (blocks
separated only by `---` lines, modelled by
`parseSearchResultsSpecSplit`) the payload is a single block yielding
one record with title `A---B`; the source function instead cuts at the
in-line `---`, destroying both the heading and the URL pairing, and
returns no records. -/
theorem parseSearchResults_boundary_cex :
    parseSearchResults "## A---B\n- URL: u" = [] ∧
    parseSearchResultsSpecSplit "## A---B\n- URL: u" =
      [{ title := "A---B", url := "u", repository := "", type := "issue",
         state := "open", author := "", created_at := "" }] := by
  constructor
  · rfl
  · rfl

/-! ## Framing: `split("\n")` across chunk boundaries -/

theorem toList_mk (l : List Char) : (String.mk l).toList = l := rfl

theorem splitNlL_cons_nl (ch : Char) (rest : List Char) (hc : (ch == '\n') = true) :
    splitNlL (ch :: rest) = [] :: splitNlL rest := by
  simp [splitNlL, hc]

theorem splitNlL_cons_not_nl (ch : Char) (rest : List Char)
    (hc : (ch == '\n') = false) (l : List Char) (ls : List (List Char))
    (h : splitNlL rest = l :: ls) :
    splitNlL (ch :: rest) = (ch :: l) :: ls := by
  simp [splitNlL, hc, h]

theorem splitNlL_append (a : List Char) :
    ∀ (E : List (List Char)) (b c : List Char), splitNlL a = E ++ [b] →
    splitNlL (a ++ c) = E ++ splitNlL (b ++ c) := by
  induction a with
  | nil =>
    intro E b c h
    have h2 : ([[]] : List (List Char)) = E ++ [b] := h
    cases E with
    | nil =>
      simp only [List.nil_append, List.cons.injEq] at h2
      obtain ⟨hb, -⟩ := h2
      subst hb
      simp
    | cons e E2 =>
      simp only [List.cons_append, List.cons.injEq] at h2
      obtain ⟨-, h3⟩ := h2
      exact absurd h3.symm (by simp)
  | cons ch a2 ih =>
    intro E b c h
    by_cases hc : (ch == '\n') = true
    · rw [splitNlL_cons_nl ch a2 hc] at h
      cases E with
      | nil =>
        simp only [List.nil_append, List.cons.injEq] at h
        obtain ⟨-, h2⟩ := h
        exact absurd h2 (splitNlL_ne_nil a2)
      | cons e E2 =>
        simp only [List.cons_append, List.cons.injEq] at h
        obtain ⟨he, h2⟩ := h
        subst he
        have hrec := ih E2 b c h2
        calc splitNlL ((ch :: a2) ++ c) = splitNlL (ch :: (a2 ++ c)) := rfl
          _ = [] :: splitNlL (a2 ++ c) := splitNlL_cons_nl ch (a2 ++ c) hc
          _ = [] :: (E2 ++ splitNlL (b ++ c)) := by rw [hrec]
          _ = ([] :: E2) ++ splitNlL (b ++ c) := rfl
    · have hc2 : (ch == '\n') = false := by simpa using hc
      cases hs : splitNlL a2 with
      | nil => exact absurd hs (splitNlL_ne_nil a2)
      | cons l ls =>
        rw [splitNlL_cons_not_nl ch a2 hc2 l ls hs] at h
        cases E with
        | nil =>
          simp only [List.nil_append, List.cons.injEq] at h
          obtain ⟨hb, hls⟩ := h
          subst hls
          have hrec := ih [] l c (by rw [hs]; rfl)
          simp only [List.nil_append] at hrec
          cases hsc : splitNlL (l ++ c) with
          | nil => exact absurd hsc (splitNlL_ne_nil _)
          | cons l2 ls2 =>
            have hleft : splitNlL ((ch :: a2) ++ c) = (ch :: l2) :: ls2 := by
              have : splitNlL (a2 ++ c) = l2 :: ls2 := by rw [hrec, hsc]
              exact splitNlL_cons_not_nl ch (a2 ++ c) hc2 l2 ls2 this
            have hright : splitNlL (b ++ c) = (ch :: l2) :: ls2 := by
              rw [← hb]
              have : (ch :: l) ++ c = ch :: (l ++ c) := rfl
              rw [this]
              exact splitNlL_cons_not_nl ch (l ++ c) hc2 l2 ls2 hsc
            rw [hleft, hright]
            rfl
        | cons e E2 =>
          simp only [List.cons_append, List.cons.injEq] at h
          obtain ⟨he, h2⟩ := h
          have hrec := ih (l :: E2) b c (by rw [hs, h2]; rfl)
          calc splitNlL ((ch :: a2) ++ c) = splitNlL (ch :: (a2 ++ c)) := rfl
            _ = (ch :: l) :: (E2 ++ splitNlL (b ++ c)) := by
                cases hsc : splitNlL (a2 ++ c) with
                | nil => exact absurd hsc (splitNlL_ne_nil _)
                | cons l2 ls2 =>
                  have h3 : l2 = l ∧ ls2 = E2 ++ splitNlL (b ++ c) := by
                    have := hrec
                    rw [hsc] at this
                    simp only [List.cons_append, List.cons.injEq] at this
                    exact this
                  obtain ⟨h4, h5⟩ := h3
                  subst h4
                  subst h5
                  exact splitNlL_cons_not_nl ch (a2 ++ c) hc2 l2 _ hsc
            _ = ((ch :: l) :: E2) ++ splitNlL (b ++ c) := rfl
            _ = (e :: E2) ++ splitNlL (b ++ c) := by rw [he]

theorem splitNl_append (a c : String) (E : List String) (b : String)
    (h : splitNl a = E ++ [b]) : splitNl (a ++ c) = E ++ splitNl (b ++ c) := by
  have hcomp : (String.toList ∘ String.mk) = (id : List Char → List Char) :=
    funext fun l => rfl
  have hcomp2 : (String.mk ∘ String.toList) = (id : String → String) :=
    funext fun x => rfl
  have hdata : splitNlL a.toList = E.map String.toList ++ [b.toList] := by
    have h2 := congrArg (List.map String.toList) h
    simp only [splitNl, List.map_map] at h2
    rw [hcomp, List.map_id, List.map_append] at h2
    simpa using h2
  have hl := splitNlL_append a.toList (E.map String.toList) b.toList c.toList hdata
  calc splitNl (a ++ c) = (splitNlL (a.toList ++ c.toList)).map String.mk := rfl
    _ = (E.map String.toList ++ splitNlL (b.toList ++ c.toList)).map String.mk := by
        rw [hl]
    _ = (E.map String.toList).map String.mk ++ splitNl (b ++ c) := by
        simp [splitNl]
    _ = E ++ splitNl (b ++ c) := by
        rw [List.map_map, hcomp2, List.map_id]

theorem splitNlL_no_nl (l : List Char) (h : ∀ ch ∈ l, (ch == '\n') = false) :
    splitNlL l = [l] := by
  induction l with
  | nil => rfl
  | cons c rest ih =>
    have hc := h c (List.mem_cons_self c rest)
    have hr := ih (fun ch hch => h ch (List.mem_cons_of_mem c hch))
    exact splitNlL_cons_not_nl c rest hc rest [] hr

theorem splitNlL_last_no_nl (s : List Char) :
    ∀ l, (splitNlL s).getLast? = some l → ∀ ch ∈ l, (ch == '\n') = false := by
  induction s with
  | nil =>
    intro l h ch hch
    simp only [splitNlL, List.getLast?_singleton, Option.some.injEq] at h
    subst h
    cases hch
  | cons c rest ih =>
    intro l h ch hch
    by_cases hc : (c == '\n') = true
    · rw [splitNlL_cons_nl c rest hc] at h
      cases hs : splitNlL rest with
      | nil => exact absurd hs (splitNlL_ne_nil rest)
      | cons l2 ls2 =>
        rw [hs, List.getLast?_cons_cons] at h
        rw [← hs] at h
        exact ih l h ch hch
    · have hc2 : (c == '\n') = false := by simpa using hc
      cases hs : splitNlL rest with
      | nil => exact absurd hs (splitNlL_ne_nil rest)
      | cons l2 ls2 =>
        rw [splitNlL_cons_not_nl c rest hc2 l2 ls2 hs] at h
        cases ls2 with
        | nil =>
          simp only [List.getLast?_singleton, Option.some.injEq] at h
          subst h
          rcases List.mem_cons.mp hch with rfl | hch2
          · exact hc2
          · exact ih l2 (by rw [hs]; rfl) ch hch2
        | cons x xs =>
          rw [List.getLast?_cons_cons] at h
          have : (splitNlL rest).getLast? = some l := by
            rw [hs, List.getLast?_cons_cons]
            exact h
          exact ih l this ch hch

theorem ne_nil_dropLast_getD (l : List String) (h : l ≠ []) :
    l = l.dropLast ++ [l.getLast?.getD ""] := by
  rw [List.getLast?_eq_getLast l h, Option.getD_some,
    List.dropLast_append_getLast h]

theorem splitNl_buffer (s : String) :
    splitNl ((splitNl s).getLast?.getD "") = [(splitNl s).getLast?.getD ""] := by
  cases hl : (splitNlL s.toList).getLast? with
  | none =>
    rw [List.getLast?_eq_none_iff] at hl
    exact absurd hl (splitNlL_ne_nil _)
  | some l =>
    have hno := splitNlL_last_no_nl s.toList l hl
    have h2 : (splitNl s).getLast? = some (String.mk l) := by
      show ((splitNlL s.toList).map String.mk).getLast? = some (String.mk l)
      rw [List.getLast?_map, hl]
      rfl
    rw [h2, Option.getD_some]
    show (splitNlL (String.mk l).toList).map String.mk = [String.mk l]
    rw [toList_mk, splitNlL_no_nl l hno]
    rfl

theorem runFraming_eq (cs : List String) :
    ∀ (b : String), splitNl b = [b] →
    splitNl (b ++ concatAll cs) =
      (runFraming b cs).1 ++ [(runFraming b cs).2] := by
  induction cs with
  | nil =>
    intro b hb
    simp only [concatAll, runFraming, String.append_empty]
    exact hb
  | cons c cs2 ih =>
    intro b hb
    have hne := splitNl_ne_nil (b ++ c)
    have hdecomp := ne_nil_dropLast_getD (splitNl (b ++ c)) hne
    have hbuf : splitNl (processChunk b c).2 = [(processChunk b c).2] :=
      splitNl_buffer (b ++ c)
    have hdecomp2 : splitNl (b ++ c) =
        (processChunk b c).1 ++ [(processChunk b c).2] := hdecomp
    have happ := splitNl_append (b ++ c) (concatAll cs2)
      ((processChunk b c).1) ((processChunk b c).2) hdecomp2
    have hassoc : b ++ concatAll (c :: cs2) = (b ++ c) ++ concatAll cs2 := by
      show b ++ (c ++ concatAll cs2) = (b ++ c) ++ concatAll cs2
      rw [String.append_assoc]
    rw [hassoc, happ, ih _ hbuf]
    show (processChunk b c).1 ++
        ((runFraming (processChunk b c).2 cs2).1 ++
          [(runFraming (processChunk b c).2 cs2).2]) =
      (runFraming b (c :: cs2)).1 ++ [(runFraming b (c :: cs2)).2]
    simp [runFraming, List.append_assoc]

/-- C5: framing is lossless and slice-independent — for every sequence
of text chunks delivered to the stdout handler, the concatenation of
all chunks split on the newline character equals the complete lines the
framing step emits followed by the retained (possibly incomplete)
trailing buffer, regardless of how the stream is sliced into chunks. -/
theorem framing_lossless (chunks : List String) :
    splitNl (concatAll chunks) =
      (runFraming "" chunks).1 ++ [(runFraming "" chunks).2] := by
  have h := runFraming_eq chunks "" rfl
  rwa [String.empty_append] at h

/-! ## Session controller: settlement behaviour -/

theorem step_late_of_received (s : Session) (hs : s.hasReceivedResponse = true)
    (e : Event) (he : isLateEvent e = true) :
    (step s e).settleCalls = s.settleCalls ∧ (step s e).kills = s.kills ∧
    (step s e).hasReceivedResponse = true := by
  cases e with
  | timerFire =>
    by_cases ha : s.timerArmed = true <;>
      refine ⟨?_, ?_, ?_⟩ <;> simp [step, ha, hs]
  | closeEvt code =>
    refine ⟨?_, ?_, ?_⟩ <;> simp [step, hs]
  | stdoutData c => cases he
  | stderrData c => cases he
  | procError a b => cases he

/-- C1 (amended): once the session has settled through the tool-call
response path (the `hasReceivedResponse` flag is set), any further
sequence of process-exit notifications and timer firings causes no
further `resolve`/`reject` call and no further termination signal.
The guarantee does not extend to further stdout data events (see the
counterexample), which the claim as stated also covers. -/
theorem settled_response_absorbs (s : Session)
    (hs : s.hasReceivedResponse = true) (es : List Event)
    (he : ∀ e ∈ es, isLateEvent e = true) :
    (runFrom s es).settleCalls = s.settleCalls ∧
    (runFrom s es).kills = s.kills := by
  induction es generalizing s with
  | nil => exact ⟨rfl, rfl⟩
  | cons e es2 ih =>
    have he1 := he e (List.mem_cons_self e es2)
    have hstep := step_late_of_received s hs e he1
    have ih2 := ih (step s e) hstep.2.2
      (fun x hx => he x (List.mem_cons_of_mem e hx))
    exact ⟨ih2.1.trans hstep.1, ih2.2.trans hstep.2.1⟩

/-- C1 counterexample: two stdout data events, each carrying a complete
id-2 result line.  The first settles the session (one resolve call, one
kill); the unguarded id-2 branch then runs again on the second event,
producing a second resolve call and a second termination signal. -/
theorem settled_once_cex :
    (run "q" [Event.stdoutData id2chunkEx,
        Event.stdoutData id2chunkEx]).settleCalls =
      [Outcome.resolvedWith [], Outcome.resolvedWith []] ∧
    (run "q" [Event.stdoutData id2chunkEx, Event.stdoutData id2chunkEx]).kills
      = 2 := by
  exact ⟨rfl, rfl⟩

/-- Witness for `settled_response_absorbs`: after a settled session, a
process-exit notification and a timer firing change neither the settle
calls nor the kill count. -/
theorem settled_response_absorbs_witness :
    (runFrom (run "q" [Event.stdoutData id2chunkEx])
        [Event.closeEvt (some 0), Event.timerFire]).settleCalls =
      (run "q" [Event.stdoutData id2chunkEx]).settleCalls ∧
    (runFrom (run "q" [Event.stdoutData id2chunkEx])
        [Event.closeEvt (some 0), Event.timerFire]).kills =
      (run "q" [Event.stdoutData id2chunkEx]).kills :=
  settled_response_absorbs _ rfl _ (by decide)

/-- C2 (amended): if the process exits before the outcome settled, the
close handler clears the timer and, on exit code 0, resolves with the
Content-Parser result of the remaining buffered output; on any
non-zero (or null) exit code it rejects at once with a process-failure
error carrying the exit code and the captured stderr text, without
first attempting to parse the buffer.  No kill signal is sent by the
close handler. -/
theorem close_before_settlement (s : Session) (code : Option Int)
    (hs : s.hasReceivedResponse = false) :
    (code ≠ some 0 →
       (step s (Event.closeEvt code)).settleCalls =
         s.settleCalls ++
           [Outcome.rejectedWith (MCPError.processFailure code s.errorData)]) ∧
    (code = some 0 →
       (step s (Event.closeEvt code)).settleCalls =
         s.settleCalls ++
           [Outcome.resolvedWith (parseMCPResponse s.responseData)]) ∧
    (step s (Event.closeEvt code)).kills = s.kills := by
  refine ⟨?_, ?_, ?_⟩
  · intro hne
    have hc : (code == some 0) = false := by
      simpa using hne
    simp [step, hs, hc]
  · intro heq
    subst heq
    simp [step, hs]
  · by_cases hc : (code == some 0) = true <;> simp [step, hs, hc]

/-- C2 counterexample: a complete, parseable id-2 response rests in the
buffer (it arrived without a newline terminator), and the process exits
with code 1.  The claim requires a parse attempt first — which would
succeed and yield one record — but the close handler rejects with the
process-failure error without parsing. -/
theorem close_parse_order_cex :
    (run "q" [Event.stdoutData bufferedRespEx,
        Event.closeEvt (some 1)]).settleCalls =
      [Outcome.rejectedWith (MCPError.processFailure (some 1) "")] ∧
    (parseMCPResponse bufferedRespEx).length = 1 := by
  exact ⟨rfl, rfl⟩

/-- Witness for `close_before_settlement`: from the freshly spawned
session, a close with exit code 1 rejects with the process failure. -/
theorem close_before_settlement_witness :
    (step (initSession "q") (Event.closeEvt (some 1))).settleCalls =
      [Outcome.rejectedWith (MCPError.processFailure (some 1) "")] := by
  have h := close_before_settlement (initSession "q") (some 1) rfl
  simpa using h.1 (by decide)

theorem idEquals_excl (m : Json) (h : idEquals m 2 = true) :
    idEquals m 1 = false := by
  unfold idEquals at h ⊢
  cases hm : msgField m "id" with
  | none => rfl
  | some v =>
    rw [hm] at h
    cases v with
    | jnum k =>
      have hk : k = 2 := by simpa using h
      subst hk
      decide
    | jnull => rfl
    | jbool b => rfl
    | jstr s2 => rfl
    | jarr a => rfl
    | jobj o => rfl

/-- C3 (amended): a received tool-call response — a non-blank line
decoding to a message with id 2 and a truthy result — always settles
the session by a `resolve` call, with the records that
`parseMCPResponse` extracts from the line (which is `[]` whenever the
payload cannot be interpreted as the record-block format); it never
rejects, because `parseMCPResponse` is total — its own `catch`
swallows the `throw` of its error branch — so the parse-failure
rejection branch of the stdout handler is unreachable. -/
theorem id2_result_resolves (s : Session) (line : String)
    (rest : List String) (m : Json) (hblank : jsTrim line ≠ "")
    (hp : jsonParse line = some m) (h2 : idEquals m 2 = true)
    (hres : optTruthy (msgField m "result") = true) :
    handleLines s (line :: rest) =
      { s with
        hasReceivedResponse := true
        timerArmed := false
        kills := s.kills + 1
        settleCalls := s.settleCalls ++
          [Outcome.resolvedWith (parseMCPResponse line)] } := by
  have h1 : idEquals m 1 = false := idEquals_excl m h2
  have hbl : (jsTrim line == "") = false := by simpa using hblank
  simp [handleLines, hbl, hp, h1, h2, hres]

/-- C3 counterexample: an id-2 response whose `result` has no `content`
member — a payload that cannot be interpreted as the record-block
format — makes the session resolve with the empty record list (and one
kill); it does not reject. -/
theorem parse_failure_unreachable_cex :
    (run "q" [Event.stdoutData badPayloadEx]).settleCalls =
      [Outcome.resolvedWith []] ∧
    (run "q" [Event.stdoutData badPayloadEx]).kills = 1 := by
  exact ⟨rfl, rfl⟩

/-- Witness for `id2_result_resolves` at the concrete uninterpretable
payload. -/
theorem id2_result_resolves_witness :
    handleLines (initSession "q")
        ["\x7b\"id\":2,\"result\":\x7b\"foo\":1\x7d\x7d"] =
      { initSession "q" with
        hasReceivedResponse := true
        timerArmed := false
        kills := 1
        settleCalls := [Outcome.resolvedWith []] } := by
  have h := id2_result_resolves (initSession "q")
    "\x7b\"id\":2,\"result\":\x7b\"foo\":1\x7d\x7d" [] badPayloadJson
    (by decide) rfl rfl rfl
  exact h

/-! ## Branch equations for the stdout line loop -/

theorem handleLines_blank (s : Session) (line : String) (rest : List String)
    (h : (jsTrim line == "") = true) :
    handleLines s (line :: rest) = handleLines s rest := by
  simp [handleLines, h]

theorem handleLines_noise (s : Session) (line : String) (rest : List String)
    (hbl : (jsTrim line == "") = false) (hp : jsonParse line = none) :
    handleLines s (line :: rest) = handleLines s rest := by
  simp [handleLines, hbl, hp]

theorem handleLines_other_msg (s : Session) (line : String)
    (rest : List String) (m : Json) (hbl : (jsTrim line == "") = false)
    (hp : jsonParse line = some m)
    (h1 : (idEquals m 1 && optTruthy (msgField m "result") &&
      !s.isInitialized) = false)
    (h2 : (idEquals m 2 && optTruthy (msgField m "result")) = false)
    (h3 : optTruthy (msgField m "error") = false) :
    handleLines s (line :: rest) = handleLines s rest := by
  simp [handleLines, hbl, hp, h1, h2, h3]

theorem handleLines_handshake (s : Session) (line : String)
    (rest : List String) (m : Json) (hbl : (jsTrim line == "") = false)
    (hp : jsonParse line = some m)
    (h1 : (idEquals m 1 && optTruthy (msgField m "result") &&
      !s.isInitialized) = true) :
    handleLines s (line :: rest) =
      handleLines
        { s with
          isInitialized := true
          stdinWrites := s.stdinWrites ++
            [ClientMsg.initedNote, ClientMsg.toolCallReq s.query] } rest := by
  simp [handleLines, hbl, hp, h1]

theorem handleLines_resolve (s : Session) (line : String)
    (rest : List String) (m : Json) (hbl : (jsTrim line == "") = false)
    (hp : jsonParse line = some m)
    (h1 : (idEquals m 1 && optTruthy (msgField m "result") &&
      !s.isInitialized) = false)
    (h2 : (idEquals m 2 && optTruthy (msgField m "result")) = true) :
    handleLines s (line :: rest) =
      { s with
        hasReceivedResponse := true
        timerArmed := false
        kills := s.kills + 1
        settleCalls := s.settleCalls ++
          [Outcome.resolvedWith (parseMCPResponse line)] } := by
  simp [handleLines, hbl, hp, h1, h2]

theorem handleLines_reject (s : Session) (line : String)
    (rest : List String) (m : Json) (hbl : (jsTrim line == "") = false)
    (hp : jsonParse line = some m)
    (h1 : (idEquals m 1 && optTruthy (msgField m "result") &&
      !s.isInitialized) = false)
    (h2 : (idEquals m 2 && optTruthy (msgField m "result")) = false)
    (h3 : optTruthy (msgField m "error") = true) :
    handleLines s (line :: rest) =
      { s with
        timerArmed := false
        kills := s.kills + 1
        settleCalls := s.settleCalls ++
          [Outcome.rejectedWith
            (MCPError.protocolErr ((msgField m "error").getD Json.jnull))] } := by
  simp [handleLines, hbl, hp, h1, h2, h3]

/-! ## Session controller: the handshake -/

theorem handleLines_writesInv (q : String) (ls : List String) (s : Session)
    (h : WritesInv q s) : WritesInv q (handleLines s ls) := by
  induction ls generalizing s with
  | nil => exact h
  | cons line rest ih =>
    by_cases hbl : (jsTrim line == "") = true
    · rw [handleLines_blank s line rest hbl]; exact ih s h
    · have hbl2 : (jsTrim line == "") = false := by simpa using hbl
      cases hp : jsonParse line with
      | none => rw [handleLines_noise s line rest hbl2 hp]; exact ih s h
      | some m =>
        by_cases h1 : (idEquals m 1 && optTruthy (msgField m "result") &&
            !s.isInitialized) = true
        · rw [handleLines_handshake s line rest m hbl2 hp h1]
          apply ih
          have hsf : s.isInitialized = false := by
            by_cases hI : s.isInitialized = true
            · rw [hI] at h1; simp at h1
            · simpa using hI
          obtain ⟨hq, hcase⟩ := h
          rcases hcase with ⟨-, hw⟩ | ⟨ht, -⟩
          · refine ⟨hq, Or.inr ⟨rfl, ?_⟩⟩
            show s.stdinWrites ++
              [ClientMsg.initedNote, ClientMsg.toolCallReq s.query] = _
            rw [hw, hq]
            rfl
          · rw [ht] at hsf; cases hsf
        · have h1f : (idEquals m 1 && optTruthy (msgField m "result") &&
              !s.isInitialized) = false := by simpa using h1
          by_cases h2 : (idEquals m 2 && optTruthy (msgField m "result")) = true
          · rw [handleLines_resolve s line rest m hbl2 hp h1f h2]
            exact h
          · have h2f : (idEquals m 2 && optTruthy (msgField m "result")) = false :=
              by simpa using h2
            by_cases h3 : optTruthy (msgField m "error") = true
            · rw [handleLines_reject s line rest m hbl2 hp h1f h2f h3]
              exact h
            · have h3f : optTruthy (msgField m "error") = false := by
                simpa using h3
              rw [handleLines_other_msg s line rest m hbl2 hp h1f h2f h3f]
              exact ih s h

theorem step_const_fields (s : Session) (e : Event)
    (hne : ∀ c, e ≠ Event.stdoutData c) :
    (step s e).query = s.query ∧ (step s e).isInitialized = s.isInitialized ∧
    (step s e).stdinWrites = s.stdinWrites := by
  cases e with
  | stdoutData c => exact absurd rfl (hne c)
  | stderrData c => exact ⟨rfl, rfl, rfl⟩
  | timerFire =>
    by_cases ha : s.timerArmed = true
    · by_cases hr : s.hasReceivedResponse = true <;>
        refine ⟨?_, ?_, ?_⟩ <;> simp [step, ha, hr]
    · refine ⟨?_, ?_, ?_⟩ <;> simp [step, ha]
  | closeEvt code =>
    by_cases hr : s.hasReceivedResponse = true
    · refine ⟨?_, ?_, ?_⟩ <;> simp [step, hr]
    · by_cases hc : (code == some 0) = true <;>
        refine ⟨?_, ?_, ?_⟩ <;> simp [step, hr, hc]
  | procError a b => exact ⟨rfl, rfl, rfl⟩

theorem step_writesInv (q : String) (s : Session) (e : Event)
    (h : WritesInv q s) : WritesInv q (step s e) := by
  cases e with
  | stdoutData c => exact handleLines_writesInv q _ _ h
  | stderrData c => exact h
  | timerFire =>
    obtain ⟨e1, e2, e3⟩ := step_const_fields s Event.timerFire
      (fun c hc => Event.noConfusion hc)
    unfold WritesInv
    rw [e1, e2, e3]
    exact h
  | closeEvt code =>
    obtain ⟨e1, e2, e3⟩ := step_const_fields s (Event.closeEvt code)
      (fun c hc => Event.noConfusion hc)
    unfold WritesInv
    rw [e1, e2, e3]
    exact h
  | procError a b =>
    obtain ⟨e1, e2, e3⟩ := step_const_fields s (Event.procError a b)
      (fun c hc => Event.noConfusion hc)
    unfold WritesInv
    rw [e1, e2, e3]
    exact h

theorem runFrom_writesInv (q : String) (es : List Event) (s : Session)
    (h : WritesInv q s) : WritesInv q (runFrom s es) := by
  induction es generalizing s with
  | nil => exact h
  | cons e rest ih => exact ih (step s e) (step_writesInv q s e h)

theorem run_writesInv (q : String) (es : List Event) :
    WritesInv q (run q es) :=
  runFrom_writesInv q es (initSession q) ⟨rfl, Or.inl ⟨rfl, rfl⟩⟩

theorem step_isInit_flip (s : Session) (e : Event)
    (h : (step s e).isInitialized = true) :
    s.isInitialized = true ∨ ∃ c, e = Event.stdoutData c := by
  cases e with
  | stdoutData c => exact Or.inr ⟨c, rfl⟩
  | stderrData c => exact Or.inl h
  | timerFire =>
    have hf := (step_const_fields s Event.timerFire
      (fun c hc => Event.noConfusion hc)).2.1
    rw [hf] at h
    exact Or.inl h
  | closeEvt code =>
    have hf := (step_const_fields s (Event.closeEvt code)
      (fun c hc => Event.noConfusion hc)).2.1
    rw [hf] at h
    exact Or.inl h
  | procError a b =>
    have hf := (step_const_fields s (Event.procError a b)
      (fun c hc => Event.noConfusion hc)).2.1
    rw [hf] at h
    exact Or.inl h

theorem flip_find (es : List Event) (s : Session)
    (h : (runFrom s es).isInitialized = true) :
    s.isInitialized = true ∨
    ∃ pre e post, es = pre ++ e :: post ∧
      (runFrom s pre).isInitialized = false ∧
      (step (runFrom s pre) e).isInitialized = true ∧
      ∃ c, e = Event.stdoutData c := by
  induction es generalizing s with
  | nil => exact Or.inl h
  | cons e rest ih =>
    rcases ih (step s e) h with htrue | ⟨pre, e2, post, heq, hf, ht, c, hc⟩
    · cases hsi : s.isInitialized with
      | true => exact Or.inl rfl
      | false =>
        refine Or.inr ⟨[], e, rest, rfl, hsi, htrue, ?_⟩
        rcases step_isInit_flip s e htrue with h2 | h2
        · rw [hsi] at h2; cases h2
        · exact h2
    · exact Or.inr ⟨e :: pre, e2, post, by rw [heq]; rfl, hf, ht, c, hc⟩

/-- C4: handshake sequencing — in every session trace the stdin writes
are either just the id-1 request (handshake response not yet observed)
or exactly the id-1 request, the initialized notification and the id-2
tool-call request in that order; the latter holds exactly when the
`isInitialized` flag is set, and the flag can only be set by a stdout
data event (where the handler observes a message with id 1 carrying a
truthy result).  In particular the tool-call request is never written
before the id-1 result is observed, and upon observing it the
initialized notification precedes the tool-call request. -/
theorem handshake_sequencing (q : String) (es : List Event) :
    (((run q es).isInitialized = false ∧
      (run q es).stdinWrites = [ClientMsg.initReq]) ∨
     ((run q es).isInitialized = true ∧
      (run q es).stdinWrites =
        [ClientMsg.initReq, ClientMsg.initedNote, ClientMsg.toolCallReq q])) ∧
    ((run q es).isInitialized = true →
      ∃ pre e post, es = pre ++ e :: post ∧
        (run q pre).isInitialized = false ∧
        (step (run q pre) e).isInitialized = true ∧
        ∃ c, e = Event.stdoutData c) := by
  constructor
  · exact (run_writesInv q es).2
  · intro hinit
    rcases flip_find es (initSession q) hinit with h1 | h2
    · cases h1
    · exact h2

/-- Witness for `handshake_sequencing`: in a trace consisting of one
stdout event carrying the id-1 result, the flag flip happens at that
event. -/
theorem handshake_sequencing_witness :
    ∃ pre e post,
      [Event.stdoutData initResLineEx] = pre ++ e :: post ∧
      (run "q" pre).isInitialized = false ∧
      (step (run "q" pre) e).isInitialized = true ∧
      ∃ c, e = Event.stdoutData c :=
  (handshake_sequencing "q" [Event.stdoutData initResLineEx]).2 rfl

/-- C10: the handshake continuation runs at most once per session —
whatever the event trace, the initialized notification and the id-2
tool-call request are each written to the process's stdin at most one
time, even if the process sends several id-1 result messages. -/
theorem handshake_at_most_once (q : String) (es : List Event) :
    ((run q es).stdinWrites.countP isInitedNoteMsg) ≤ 1 ∧
    ((run q es).stdinWrites.countP isToolCallMsg) ≤ 1 := by
  rcases (run_writesInv q es).2 with ⟨-, hw⟩ | ⟨-, hw⟩ <;> rw [hw] <;>
    exact ⟨by simp [List.countP_cons, isInitedNoteMsg],
      by simp [List.countP_cons, isToolCallMsg]⟩

/-! ## Session controller: settle calls only accumulate -/

theorem handleLines_growth (ls : List String) (s : Session) :
    ∃ t, (handleLines s ls).settleCalls = s.settleCalls ++ t := by
  induction ls generalizing s with
  | nil => exact ⟨[], by simp [handleLines]⟩
  | cons line rest ih =>
    by_cases hbl : (jsTrim line == "") = true
    · rw [handleLines_blank s line rest hbl]; exact ih s
    · have hbl2 : (jsTrim line == "") = false := by simpa using hbl
      cases hp : jsonParse line with
      | none => rw [handleLines_noise s line rest hbl2 hp]; exact ih s
      | some m =>
        by_cases h1 : (idEquals m 1 && optTruthy (msgField m "result") &&
            !s.isInitialized) = true
        · rw [handleLines_handshake s line rest m hbl2 hp h1]
          exact ih _
        · have h1f : (idEquals m 1 && optTruthy (msgField m "result") &&
              !s.isInitialized) = false := by simpa using h1
          by_cases h2 : (idEquals m 2 && optTruthy (msgField m "result")) = true
          · rw [handleLines_resolve s line rest m hbl2 hp h1f h2]
            exact ⟨[Outcome.resolvedWith (parseMCPResponse line)], rfl⟩
          · have h2f : (idEquals m 2 && optTruthy (msgField m "result")) = false :=
              by simpa using h2
            by_cases h3 : optTruthy (msgField m "error") = true
            · rw [handleLines_reject s line rest m hbl2 hp h1f h2f h3]
              exact ⟨[Outcome.rejectedWith
                (MCPError.protocolErr ((msgField m "error").getD Json.jnull))], rfl⟩
            · have h3f : optTruthy (msgField m "error") = false := by
                simpa using h3
              rw [handleLines_other_msg s line rest m hbl2 hp h1f h2f h3f]
              exact ih s

theorem step_growth (s : Session) (e : Event) :
    ∃ t, (step s e).settleCalls = s.settleCalls ++ t := by
  cases e with
  | stdoutData c => exact handleLines_growth _ _
  | stderrData c => exact ⟨[], by simp [step]⟩
  | timerFire =>
    by_cases ha : s.timerArmed = true
    · by_cases hr : s.hasReceivedResponse = true
      · exact ⟨[], by simp [step, ha, hr]⟩
      · exact ⟨[Outcome.rejectedWith MCPError.timeout], by simp [step, ha, hr]⟩
    · exact ⟨[], by simp [step, ha]⟩
  | closeEvt code =>
    by_cases hr : s.hasReceivedResponse = true
    · exact ⟨[], by simp [step, hr]⟩
    · by_cases hc : (code == some 0) = true
      · exact ⟨[Outcome.resolvedWith (parseMCPResponse s.responseData)],
          by simp [step, hr, hc]⟩
      · exact ⟨[Outcome.rejectedWith (MCPError.processFailure code s.errorData)],
          by simp [step, hr, hc]⟩
  | procError a b => exact ⟨_, rfl⟩

theorem runFrom_growth (es : List Event) (s : Session) :
    ∃ t, (runFrom s es).settleCalls = s.settleCalls ++ t := by
  induction es generalizing s with
  | nil => exact ⟨[], by simp [runFrom]⟩
  | cons e rest ih =>
    rcases step_growth s e with ⟨t1, h1⟩
    rcases ih (step s e) with ⟨t2, h2⟩
    refine ⟨t1 ++ t2, ?_⟩
    show (runFrom (step s e) rest).settleCalls = _
    rw [h2, h1, List.append_assoc]

/-! ## Session controller: unsettled sessions have an armed timer -/

theorem handleLines_unsettledInv (ls : List String) (s : Session)
    (h : UnsettledInv s) : UnsettledInv (handleLines s ls) := by
  induction ls generalizing s with
  | nil => exact h
  | cons line rest ih =>
    by_cases hbl : (jsTrim line == "") = true
    · rw [handleLines_blank s line rest hbl]; exact ih s h
    · have hbl2 : (jsTrim line == "") = false := by simpa using hbl
      cases hp : jsonParse line with
      | none => rw [handleLines_noise s line rest hbl2 hp]; exact ih s h
      | some m =>
        by_cases h1 : (idEquals m 1 && optTruthy (msgField m "result") &&
            !s.isInitialized) = true
        · rw [handleLines_handshake s line rest m hbl2 hp h1]
          exact ih _ (fun he => h he)
        · have h1f : (idEquals m 1 && optTruthy (msgField m "result") &&
              !s.isInitialized) = false := by simpa using h1
          by_cases h2 : (idEquals m 2 && optTruthy (msgField m "result")) = true
          · rw [handleLines_resolve s line rest m hbl2 hp h1f h2]
            intro he
            exact absurd he (by simp)
          · have h2f : (idEquals m 2 && optTruthy (msgField m "result")) = false :=
              by simpa using h2
            by_cases h3 : optTruthy (msgField m "error") = true
            · rw [handleLines_reject s line rest m hbl2 hp h1f h2f h3]
              intro he
              exact absurd he (by simp)
            · have h3f : optTruthy (msgField m "error") = false := by
                simpa using h3
              rw [handleLines_other_msg s line rest m hbl2 hp h1f h2f h3f]
              exact ih s h

theorem step_unsettledInv (s : Session) (e : Event) (h : UnsettledInv s) :
    UnsettledInv (step s e) := by
  cases e with
  | stdoutData c => exact handleLines_unsettledInv _ _ (fun he => h he)
  | stderrData c => exact fun he => h he
  | timerFire =>
    by_cases ha : s.timerArmed = true
    · by_cases hr : s.hasReceivedResponse = true
      · have hred : step s Event.timerFire = { s with timerArmed := false } := by
          simp [step, ha, hr]
        rw [hred]
        intro he
        have h3 := h he
        rw [hr] at h3
        exact absurd h3.2.2 (by simp)
      · have hred : step s Event.timerFire =
            { s with
              timerArmed := false
              kills := s.kills + 1
              settleCalls := s.settleCalls ++
                [Outcome.rejectedWith MCPError.timeout] } := by
          simp [step, ha, hr]
        rw [hred]
        intro he
        exact absurd he (by simp)
    · have hred : step s Event.timerFire = s := by simp [step, ha]
      rw [hred]
      exact h
  | closeEvt code =>
    by_cases hr : s.hasReceivedResponse = true
    · have hred : step s (Event.closeEvt code) = { s with timerArmed := false } := by
        simp [step, hr]
      rw [hred]
      intro he
      have h3 := h he
      rw [hr] at h3
      exact absurd h3.2.2 (by simp)
    · by_cases hc : (code == some 0) = true
      · have hred : step s (Event.closeEvt code) =
            { s with
              timerArmed := false
              settleCalls := s.settleCalls ++
                [Outcome.resolvedWith (parseMCPResponse s.responseData)] } := by
          simp [step, hr, hc]
        rw [hred]
        intro he
        exact absurd he (by simp)
      · have hred : step s (Event.closeEvt code) =
            { s with
              timerArmed := false
              settleCalls := s.settleCalls ++
                [Outcome.rejectedWith
                  (MCPError.processFailure code s.errorData)] } := by
          simp [step, hr, hc]
        rw [hred]
        intro he
        exact absurd he (by simp)
  | procError a b =>
    intro he
    simp [step] at he

theorem runFrom_unsettledInv (es : List Event) (s : Session)
    (h : UnsettledInv s) : UnsettledInv (runFrom s es) := by
  induction es generalizing s with
  | nil => exact h
  | cons e rest ih => exact ih (step s e) (step_unsettledInv s e h)

theorem run_unsettledInv (q : String) (es : List Event) :
    UnsettledInv (run q es) :=
  runFrom_unsettledInv es (initSession q) (fun _ => ⟨rfl, rfl, rfl⟩)

/-- C9 (amended): the deadline timer can only fire while the session is
unsettled — every settlement path clears it — and when it fires the
session rejects with the timeout error; the firing sends the first and,
at that moment, only termination signal (no kill precedes it and the
handler performs exactly one), and the session's final outcome (the
first settle call) remains the timeout rejection whatever events
follow.  As the counterexample shows, later stdout messages can
trigger additional kill signals, so the process is not signalled
exactly once over the entire session, which the claim as stated
requires. -/
theorem timeout_rejection (q : String) (es1 es2 : List Event)
    (h : (run q es1).settleCalls = []) :
    (run q es1).kills = 0 ∧
    (step (run q es1) Event.timerFire).settleCalls =
      [Outcome.rejectedWith MCPError.timeout] ∧
    (step (run q es1) Event.timerFire).kills = 1 ∧
    (run q (es1 ++ Event.timerFire :: es2)).settleCalls.head? =
      some (Outcome.rejectedWith MCPError.timeout) := by
  obtain ⟨ha, hk, hr⟩ := run_unsettledInv q es1 h
  have hstep : step (run q es1) Event.timerFire =
      { run q es1 with
        timerArmed := false
        kills := (run q es1).kills + 1
        settleCalls := (run q es1).settleCalls ++
          [Outcome.rejectedWith MCPError.timeout] } := by
    simp [step, ha, hr]
  refine ⟨hk, ?_, ?_, ?_⟩
  · rw [hstep]
    show (run q es1).settleCalls ++ [Outcome.rejectedWith MCPError.timeout] = _
    rw [h]
    rfl
  · rw [hstep]
    show (run q es1).kills + 1 = 1
    rw [hk]
  · have hsplit : run q (es1 ++ Event.timerFire :: es2) =
        runFrom (step (run q es1) Event.timerFire) es2 := by
      show (es1 ++ Event.timerFire :: es2).foldl step (initSession q) = _
      rw [List.foldl_append]
      rfl
    rw [hsplit]
    rcases runFrom_growth es2 (step (run q es1) Event.timerFire) with ⟨t, ht⟩
    rw [ht, hstep]
    show ((run q es1).settleCalls ++
      [Outcome.rejectedWith MCPError.timeout] ++ t).head? = _
    rw [h]
    rfl

/-- C9 counterexample: the timer fires (rejecting with the timeout and
killing once), then a late stdout message carrying an `error` member
arrives; its handler kills again, so two termination signals are sent
in a session whose outcome is the timeout rejection and in which no
tool-call response ever settled the session within the deadline. -/
theorem timeout_kill_cex :
    (run "q" [Event.timerFire, Event.stdoutData errLineEx]).kills = 2 ∧
    (run "q" [Event.timerFire, Event.stdoutData errLineEx]).settleCalls.head? =
      some (Outcome.rejectedWith MCPError.timeout) := by
  exact ⟨rfl, rfl⟩

/-- Witness for `timeout_rejection`: the timer fires right after the
spawn. -/
theorem timeout_rejection_witness :
    (run "q" []).kills = 0 ∧
    (step (run "q" []) Event.timerFire).settleCalls =
      [Outcome.rejectedWith MCPError.timeout] ∧
    (step (run "q" []) Event.timerFire).kills = 1 ∧
    (run "q" ([] ++ Event.timerFire :: [])).settleCalls.head? =
      some (Outcome.rejectedWith MCPError.timeout) :=
  timeout_rejection "q" [] [] rfl

end GithubBrain
